import Mathlib

/-!
Verification development for the feature_engine units covered by the spec:
the IncreasingWidthDiscretiser boundary construction
(feature_engine/discretisation/increasing_width.py) and the
StringSimilarityEncoder (feature_engine/encoding/similarity_encoder.py).

Numeric columns are embedded as lists of real numbers (the source works on
NaN-free float columns; the claims under consideration all assume the column
is free of missing values).  Interval boundaries are embedded as `EReal`
values so that the `float("-inf")` / `float("inf")` overrides of the source
are the lattice elements `⊥` and `⊤`.
-/

/-- Minimum of a numeric column, as `pandas.Series.min` behaves on a
non-empty column without missing values (`X[var].min()` in the source).
The `[]` case is an arbitrary default, never used under the claims'
non-emptiness hypotheses. -/
noncomputable def colMin : List ℝ → ℝ
  | [] => 0
  | x :: xs => xs.foldl min x

/-- Maximum of a numeric column (`X[var].max()` in the source). -/
noncomputable def colMax : List ℝ → ℝ
  | [] => 0
  | x :: xs => xs.foldl max x

/-- Unsorted boundary candidates of `IncreasingWidthDiscretiser.fit`:
`increment = np.power(max_ - min_, 1.0 / self.bins)` followed by
`np.r_[min_, min_ + np.power(increment, np.arange(1, self.bins + 1))]`.
The fractional power is real exponentiation (`Real.rpow`); the exponents
`1 .. bins` applied to `increment` are natural powers. -/
noncomputable def rawBoundaries (lo hi : ℝ) (bins : ℕ) : List ℝ :=
  lo :: (List.range bins).map (fun e => lo + ((hi - lo) ^ ((1 : ℝ) / (bins : ℝ))) ^ (e + 1))

/-- Override of the outer boundaries in `IncreasingWidthDiscretiser.fit`:
`bins[0] = float("-inf")` and `bins[len(bins) - 1] = float("inf")`,
embedded as positional `List.set` updates into `EReal`. -/
def overrideEnds (l : List ℝ) : List EReal :=
  ((l.map (fun x : ℝ => (x : EReal))).set 0 ⊥).set (l.length - 1) ⊤

/-- Boundary list computed by `IncreasingWidthDiscretiser.fit` for one
variable: candidates, ascending `np.sort`, then the infinity override. -/
noncomputable def buildBoundaries (lo hi : ℝ) (bins : ℕ) : List EReal :=
  overrideEnds (List.insertionSort (· ≤ ·) (rawBoundaries lo hi bins))

/-- Value stored in `binner_dict_[var]` by `IncreasingWidthDiscretiser.fit`
for a single numeric column. -/
noncomputable def fitVar (col : List ℝ) (bins : ℕ) : List EReal :=
  buildBoundaries (colMin col) (colMax col) bins

/-- State `binner_dict_` built by `IncreasingWidthDiscretiser.fit` over the
selected numeric columns of the input dataframe, as an association list in
column order. -/
noncomputable def binnerDict (df : List (String × List ℝ)) (bins : ℕ) :
    List (String × List EReal) :=
  df.map (fun p => (p.1, fitVar p.2 bins))

/-- Boundary algorithm exactly as §4.1 of the spec words it: compute
`increment = (hi - lo) ** (1 / bins)`, generate `bins` successive powers of
`increment` (exponents 1..bins) added to `lo`, prepend `lo`, sort ascending,
then overwrite the first element with negative infinity and the last with
positive infinity.  The ascending sort is rendered here by `List.mergeSort`,
to be compared with the insertion sort used in the code-derived definition. -/
noncomputable def specBoundaries (lo hi : ℝ) (bins : ℕ) : List EReal :=
  overrideEnds ((lo :: (List.range bins).map
    (fun e => lo + ((hi - lo) ^ ((1 : ℝ) / (bins : ℝ))) ^ (e + 1))).mergeSort
      (fun a b => a ≤ b))

lemma set_length_sub_one_eq_dropLast_concat {α : Type*} (x : α) :
    ∀ (m : List α), m ≠ [] → m.set (m.length - 1) x = m.dropLast ++ [x]
  | [], h => absurd rfl h
  | [_], _ => rfl
  | a :: b :: m, _ => by
    have ih := set_length_sub_one_eq_dropLast_concat x (b :: m) (by simp)
    simp only [List.length_cons, Nat.add_sub_cancel, List.set_cons_succ] at ih ⊢
    rw [ih]
    simp

lemma overrideEnds_cons (a : ℝ) (l : List ℝ) (h : l ≠ []) :
    overrideEnds (a :: l) =
      ⊥ :: ((l.map (fun x : ℝ => (x : EReal))).dropLast ++ [⊤]) := by
  have hlen : (a :: l).length - 1 = (l.map (fun x : ℝ => (x : EReal))).length - 1 + 1 := by
    have : l.length ≠ 0 := by simpa using h
    simp only [List.length_cons, List.length_map]
    omega
  have hml : l.map (fun x : ℝ => (x : EReal)) ≠ [] := by simpa using h
  simp only [overrideEnds, List.map_cons, List.set_cons_zero, hlen, List.set_cons_succ]
  rw [set_length_sub_one_eq_dropLast_concat _ _ hml]

lemma foldl_min_const (c : ℝ) : ∀ (ys : List ℝ), (∀ y ∈ ys, y = c) → ys.foldl min c = c
  | [], _ => rfl
  | y :: ys, h => by
    have hy : y = c := h y (by simp)
    have : ∀ z ∈ ys, z = c := fun z hz => h z (by simp [hz])
    simp only [List.foldl_cons, hy, min_self]
    exact foldl_min_const c ys this

lemma foldl_max_const (c : ℝ) : ∀ (ys : List ℝ), (∀ y ∈ ys, y = c) → ys.foldl max c = c
  | [], _ => rfl
  | y :: ys, h => by
    have hy : y = c := h y (by simp)
    have : ∀ z ∈ ys, z = c := fun z hz => h z (by simp [hz])
    simp only [List.foldl_cons, hy, max_self]
    exact foldl_max_const c ys this

lemma colMin_const (xs : List ℝ) (c : ℝ) (h : ∀ x ∈ xs, x = c) (hne : xs ≠ []) :
    colMin xs = c := by
  cases xs with
  | nil => exact absurd rfl hne
  | cons x xs =>
    have hx : x = c := h x (by simp)
    have : ∀ z ∈ xs, z = c := fun z hz => h z (by simp [hz])
    simp only [colMin, hx]
    exact foldl_min_const c xs this

lemma colMax_const (xs : List ℝ) (c : ℝ) (h : ∀ x ∈ xs, x = c) (hne : xs ≠ []) :
    colMax xs = c := by
  cases xs with
  | nil => exact absurd rfl hne
  | cons x xs =>
    have hx : x = c := h x (by simp)
    have : ∀ z ∈ xs, z = c := fun z hz => h z (by simp [hz])
    simp only [colMax, hx]
    exact foldl_max_const c xs this

lemma rawBoundaries_const (c : ℝ) (b : ℕ) (hb : 0 < b) :
    rawBoundaries c c b = c :: List.replicate b c := by
  have hz : (c - c) ^ ((1 : ℝ) / (b : ℝ)) = 0 := by
    rw [sub_self, Real.zero_rpow]
    positivity
  have : (List.range b).map
      (fun e => c + ((c - c) ^ ((1 : ℝ) / (b : ℝ))) ^ (e + 1)) = List.replicate b c := by
    have hlen : ((List.range b).map
        (fun e => c + ((c - c) ^ ((1 : ℝ) / (b : ℝ))) ^ (e + 1))).length = b := by simp
    have hmem : ∀ x ∈ (List.range b).map
        (fun e => c + ((c - c) ^ ((1 : ℝ) / (b : ℝ))) ^ (e + 1)), x = c := by
      intro x hx
      rcases List.mem_map.mp hx with ⟨e, _, rfl⟩
      rw [hz, zero_pow (Nat.succ_ne_zero e), add_zero]
    calc (List.range b).map (fun e => c + ((c - c) ^ ((1 : ℝ) / (b : ℝ))) ^ (e + 1))
        = List.replicate ((List.range b).map
            (fun e => c + ((c - c) ^ ((1 : ℝ) / (b : ℝ))) ^ (e + 1))).length c :=
          List.eq_replicate_length.mpr hmem
      _ = List.replicate b c := by rw [hlen]
  rw [rawBoundaries, this]

lemma sorted_cons_replicate (c : ℝ) (b : ℕ) :
    List.Sorted (· ≤ ·) (c :: List.replicate b c) := by
  rw [List.sorted_cons]
  constructor
  · intro y hy
    rw [List.eq_of_mem_replicate hy]
  · rw [List.Sorted, List.pairwise_replicate]
    right
    exact le_refl c

lemma buildBoundaries_const (c : ℝ) (b : ℕ) (hb : 0 < b) :
    buildBoundaries c c b = ⊥ :: (List.replicate (b - 1) ((c : ℝ) : EReal) ++ [⊤]) := by
  rw [buildBoundaries, rawBoundaries_const c b hb,
    List.Sorted.insertionSort_eq (sorted_cons_replicate c b),
    overrideEnds_cons c _ (by simp [hb.ne']),
    List.map_replicate]
  congr 2
  rcases Nat.exists_eq_add_of_lt hb with ⟨n, rfl⟩
  simp only [Nat.zero_add, Nat.add_sub_cancel]
  rw [List.replicate_succ' n _, List.dropLast_concat]

lemma fitVar_const (xs : List ℝ) (c : ℝ) (b : ℕ) (hall : ∀ x ∈ xs, x = c)
    (hne : xs ≠ []) (hb : 0 < b) :
    fitVar xs b = ⊥ :: (List.replicate (b - 1) ((c : ℝ) : EReal) ++ [⊤]) := by
  rw [fitVar, colMin_const xs c hall hne, colMax_const xs c hall hne,
    buildBoundaries_const c b hb]

lemma sorted_bot_append_top (mid : List EReal) (h : List.Sorted (· ≤ ·) mid) :
    List.Sorted (· ≤ ·) (⊥ :: (mid ++ [⊤])) := by
  rw [List.sorted_cons]
  refine ⟨fun y _ => bot_le, ?_⟩
  rw [List.Sorted, List.pairwise_append]
  refine ⟨h, List.pairwise_singleton _ _, fun a _ y hy => ?_⟩
  rcases List.mem_singleton.mp hy with rfl
  exact le_top

lemma buildBoundaries_shape (lo hi : ℝ) (b : ℕ) (hb : 0 < b) :
    ∃ mid : List EReal,
      buildBoundaries lo hi b = ⊥ :: (mid ++ [⊤]) ∧
      mid.length = b - 1 ∧
      List.Sorted (· ≤ ·) mid := by
  have hraw : (rawBoundaries lo hi b).length = b + 1 := by
    simp [rawBoundaries]
  have hslen : (List.insertionSort (· ≤ ·) (rawBoundaries lo hi b)).length = b + 1 := by
    rw [List.length_insertionSort]
    exact hraw
  have hsort : List.Sorted (· ≤ ·) (List.insertionSort (· ≤ ·) (rawBoundaries lo hi b)) :=
    List.sorted_insertionSort _ _
  rcases hs : List.insertionSort (· ≤ ·) (rawBoundaries lo hi b) with _ | ⟨a, t⟩
  · rw [hs] at hslen
    simp at hslen
  · rw [hs] at hslen hsort
    have htne : t ≠ [] := by
      intro hcon
      rw [hcon] at hslen
      simp at hslen
      omega
    refine ⟨(t.map (fun x : ℝ => (x : EReal))).dropLast, ?_, ?_, ?_⟩
    · rw [buildBoundaries, hs, overrideEnds_cons a t htne]
    · have : t.length = b := by
        simp at hslen
        omega
      simp [this]
    · have htsort : List.Sorted (· ≤ ·) t := (List.sorted_cons.mp hsort).2
      have hmap : List.Sorted (· ≤ ·) (t.map (fun x : ℝ => (x : EReal))) :=
        List.Pairwise.map _ (fun x y hxy => EReal.coe_le_coe_iff.mpr hxy) htsort
      exact List.Pairwise.sublist (List.dropLast_sublist _) hmap

/-- C1 (amended): for every numeric variable fitted by
`IncreasingWidthDiscretiser` with a positive integer bin count `bins` on a
non-empty column free of missing values, the stored boundary list
`binner_dict_[var]` has exactly `bins + 1` entries, its first entry is
negative infinity, its last entry is positive infinity, and the whole
sequence is sorted non-decreasingly after the infinity override.  (The
original claim's strict sortedness fails, e.g. on constant columns; see the
counterexample.) -/
theorem incwidth_binner_shape (df : List (String × List ℝ)) (bins : ℕ)
    (v : String) (col : List ℝ) (hmem : (v, col) ∈ df) (hb : 0 < bins)
    (hne : col ≠ []) :
    (v, fitVar col bins) ∈ binnerDict df bins ∧
    (fitVar col bins).length = bins + 1 ∧
    (fitVar col bins).head? = some ⊥ ∧
    (fitVar col bins).getLast? = some ⊤ ∧
    List.Sorted (· ≤ ·) (fitVar col bins) := by
  rcases buildBoundaries_shape (colMin col) (colMax col) bins hb with
    ⟨mid, heq, hlen, hsorted⟩
  have hfit : fitVar col bins = ⊥ :: (mid ++ [⊤]) := heq
  refine ⟨List.mem_map.mpr ⟨(v, col), hmem, rfl⟩, ?_, ?_, ?_, ?_⟩
  · rw [hfit]
    simp only [List.length_cons, List.length_append, List.length_nil, hlen]
    omega
  · rw [hfit]
    rfl
  · rw [hfit, ← List.cons_append, List.getLast?_concat]
  · rw [hfit]
    exact sorted_bot_append_top mid hsorted

/-- C1 witness: the amended shape theorem applied to the concrete fit input
consisting of the single column `"a" = [5.0]` with `bins = 3`. -/
theorem incwidth_binner_shape_witness :
    ((("a", [(5 : ℝ)]) ∈ [("a", [(5 : ℝ)])] ∧ 0 < 3 ∧ [(5 : ℝ)] ≠ []) ∧
      (("a", fitVar [(5 : ℝ)] 3) ∈ binnerDict [("a", [(5 : ℝ)])] 3 ∧
        (fitVar [(5 : ℝ)] 3).length = 3 + 1 ∧
        (fitVar [(5 : ℝ)] 3).head? = some ⊥ ∧
        (fitVar [(5 : ℝ)] 3).getLast? = some ⊤ ∧
        List.Sorted (· ≤ ·) (fitVar [(5 : ℝ)] 3))) :=
  ⟨⟨by simp, by norm_num, by simp⟩,
    incwidth_binner_shape [("a", [(5 : ℝ)])] 3 "a" [(5 : ℝ)] (by simp) (by norm_num)
      (by simp)⟩

/-- C1 counterexample: on the constant column `[5.0]` with `bins = 3` the
claim's hypotheses hold, yet the stored boundary list
`[-inf, 5, 5, +inf]` is not strictly sorted. -/
theorem incwidth_binner_strict_cex :
    (("a", [(5 : ℝ)]) ∈ [("a", [(5 : ℝ)])] ∧ 0 < 3 ∧ [(5 : ℝ)] ≠ []) ∧
    ¬ List.Sorted (· < ·) (fitVar [(5 : ℝ)] 3) := by
  refine ⟨⟨by simp, by norm_num, by simp⟩, ?_⟩
  rw [fitVar_const [(5 : ℝ)] 5 3 (by simp) (by simp) (by norm_num),
    show List.replicate (3 - 1) (((5 : ℝ) : EReal)) =
      [((5 : ℝ) : EReal), ((5 : ℝ) : EReal)] from rfl]
  intro hcon
  simp [List.sorted_cons] at hcon

/-- C4: for every column with `min < max` (non-constant), no missing values
and positive integer `bins`, `IncreasingWidthDiscretiser.fit` computes
exactly the boundary sequence the spec describes: `increment =
(max - min) ** (1 / bins)`, the values `min + increment ** e` for
`e = 1..bins` prepended with `min`, sorted ascending, with the first element
then overwritten by negative infinity and the last by positive infinity. -/
theorem incwidth_spec_algorithm (xs : List ℝ) (k : ℕ) (hk : 0 < k)
    (hlt : colMin xs < colMax xs) :
    fitVar xs k = specBoundaries (colMin xs) (colMax xs) k := by
  rw [fitVar, buildBoundaries, specBoundaries, rawBoundaries]
  congr 1
  exact (List.mergeSort_eq_insertionSort (· ≤ ·) _).symm

/-- C4 witness: the algorithm-refinement theorem applied to the concrete
column `[0.0, 2.0]` with `bins = 1`. -/
theorem incwidth_spec_algorithm_witness :
    (0 < 1 ∧ colMin [(0 : ℝ), 2] < colMax [(0 : ℝ), 2]) ∧
      fitVar [(0 : ℝ), 2] 1 =
        specBoundaries (colMin [(0 : ℝ), 2]) (colMax [(0 : ℝ), 2]) 1 :=
  ⟨⟨by norm_num, by norm_num [colMin, colMax]⟩,
    incwidth_spec_algorithm [(0 : ℝ), 2] 1 (by norm_num)
      (by norm_num [colMin, colMax])⟩

/-- C10 (amended): for every constant column (all entries equal to `c`, no
missing values) and every `bins = b ≥ 2`, `IncreasingWidthDiscretiser.fit`
is well defined (the increment `0 ** (1/b)` is `0`) and stores exactly
`[-inf, c, ..., c, +inf]` with `b - 1` middle entries equal to `c`; for
`b ≥ 3` those middle entries are not strictly increasing.  (The original
claim asserted non-strictness for every `b ≥ 2`, which fails at `b = 2`
where the middle is a single entry; see the counterexample.) -/
theorem incwidth_constant_column (xs : List ℝ) (c : ℝ) (b : ℕ)
    (hall : ∀ x ∈ xs, x = c) (hne : xs ≠ []) (hb : 2 ≤ b) :
    fitVar xs b = ⊥ :: (List.replicate (b - 1) ((c : ℝ) : EReal) ++ [⊤]) ∧
    (3 ≤ b → ¬ List.Sorted (· < ·) (List.replicate (b - 1) ((c : ℝ) : EReal))) := by
  constructor
  · exact fitVar_const xs c b hall hne (by omega)
  · intro h3 hcon
    rcases Nat.exists_eq_add_of_le (show 2 ≤ b - 1 by omega) with ⟨n, hn⟩
    rw [hn] at hcon
    rw [show 2 + n = n + 1 + 1 by omega, List.replicate_succ, List.replicate_succ] at hcon
    exact lt_irrefl _ ((List.sorted_cons.mp hcon).1 _ (by simp))

/-- C10 witness: the constant-column theorem applied to the concrete column
`[5.0, 5.0]` with `bins = 3`. -/
theorem incwidth_constant_column_witness :
    ((∀ x ∈ [(5 : ℝ), 5], x = 5) ∧ [(5 : ℝ), 5] ≠ [] ∧ 2 ≤ 3) ∧
      (fitVar [(5 : ℝ), 5] 3 =
          ⊥ :: (List.replicate (3 - 1) (((5 : ℝ)) : EReal) ++ [⊤]) ∧
        (3 ≤ 3 → ¬ List.Sorted (· < ·)
          (List.replicate (3 - 1) (((5 : ℝ)) : EReal)))) :=
  ⟨⟨by simp, by simp, by norm_num⟩,
    incwidth_constant_column [(5 : ℝ), 5] 5 3 (by simp) (by simp) (by norm_num)⟩

/-- C10 counterexample: at `bins = 2` on the constant column `[5.0]` the
boundary list is `[-inf, 5, +inf]` and its (single) middle entry IS
strictly increasing, contradicting the claim's parenthetical that the
middle entries are not strictly increasing. -/
theorem incwidth_constant_bins_two_cex :
    fitVar [(5 : ℝ)] 2 = [⊥, ((5 : ℝ) : EReal), ⊤] ∧
    List.Sorted (· < ·) (((fitVar [(5 : ℝ)] 2).drop 1).dropLast) := by
  have h := fitVar_const [(5 : ℝ)] 5 2 (by simp) (by simp) (by norm_num)
  rw [show List.replicate (2 - 1) (((5 : ℝ)) : EReal) = [((5 : ℝ) : EReal)] from rfl]
    at h
  rw [h]
  exact ⟨rfl, by simp⟩

/-!
StringSimilarityEncoder embedding.  A dataframe is an association list of
named columns; a cell is a missing marker (`NaN`), a string value, or a
numeric value (the similarity scores that the transform writes).  String
values are lists of characters; similarity scores are exact rationals
(`difflib`'s quick ratio is the rational `2*M/T`, exactly representable,
and the claims under consideration depend only on its exact values).
-/

/-- Cell of a dataframe column: missing marker (NaN), string, or number. -/
inductive Cell where
  | na : Cell
  | str : List Char → Cell
  | num : ℚ → Cell
deriving DecidableEq

/-- Missing-value policy of the encoder (`handle_missing` constructor
argument, already validated to be one of the three recognised values). -/
inductive HandleMissing where
  | error : HandleMissing
  | impute : HandleMissing
  | ignore : HandleMissing
deriving DecidableEq

/-- Reading a cell of an encoded column as an optional string: `NaN` is
`none`, a string is itself.  The claims' theorems restrict encoded columns
to string/missing cells (`isStrCell`), matching the object-dtype columns
the encoder selects, so the `num` case is outside the modelled domain. -/
def cellAsStr : Cell → Option (List Char)
  | Cell.na => none
  | Cell.str s => some s
  | Cell.num _ => none

/-- Test that a cell is a legitimate member of an encoded (string) column. -/
def isStrCell : Cell → Bool
  | Cell.num _ => false
  | _ => true

/-- Accumulator pass collecting the distinct values of a column in order of
first appearance. -/
def firstSeenAux {α : Type*} [DecidableEq α] (acc : List α) : List α → List α
  | [] => acc
  | x :: xs =>
      if x ∈ acc then firstSeenAux acc xs else firstSeenAux (acc ++ [x]) xs

/-- List of distinct values of a column in order of first appearance. -/
def firstSeen {α : Type*} [DecidableEq α] (l : List α) : List α :=
  firstSeenAux [] l

/-- Ranking relation of the frequency ordering: `a` may precede `b` when
`a`'s occurrence count in the column values `n` is at least `b`'s. -/
def countGE {α : Type*} [DecidableEq α] (n : List α) (a b : α) : Prop :=
  n.count b ≤ n.count a

instance {α : Type*} [DecidableEq α] (n : List α) : DecidableRel (countGE n) :=
  fun _ _ => Nat.decLe _ _

/-- Models `pandas.Series.value_counts(...).index` on the values of a
column: the distinct values ranked by descending occurrence count, values
with equal counts kept in first-seen order (a stable descending sort over
the first-seen distinct values). -/
def valueCountsIndex {α : Type*} [DecidableEq α] (n : List α) : List α :=
  List.insertionSort (countGE n) (firstSeen n)

/-- Models `pandas.Series.head(n)`: all entries when `n` is `None`
(`top_categories = None`), the first `n` entries otherwise. -/
def headTrunc {α : Type*} (top : Option ℕ) (l : List α) : List α :=
  match top with
  | none => l
  | some k => l.take k

/-- Column of an association-list dataframe: the first column carrying the
requested name (empty when absent; the claims' inputs carry the column). -/
def getCol : List (String × List Cell) → String → List Cell
  | [], _ => []
  | p :: rest, v => if p.1 = v then p.2 else getCol rest v

/-- Missing-value check of `_check_contains_na` for one column. -/
def colHasNA (df : List (String × List Cell)) (v : String) : Bool :=
  (getCol df v).any (fun c => c = Cell.na)

/-- String values a column contributes to frequency counting under each
missing policy: `error` and `ignore` drop missing entries
(`value_counts` drops NaN; under `error` none are present anyway), while
`impute` first replaces missing entries by the empty string (`fillna("")`). -/
def normalizedCol (policy : HandleMissing) (col : List Cell) : List (List Char) :=
  match policy with
  | HandleMissing.impute => col.map (fun c => (cellAsStr c).getD [])
  | _ => col.filterMap cellAsStr

/-- State `encoder_dict_` learned by `StringSimilarityEncoder.fit`: per
selected variable, `X[var](.fillna("")).value_counts().head(top_categories)
.index.tolist()`, after the `handle_missing = "error"` NA check. -/
def encoderFit (policy : HandleMissing) (top : Option ℕ) (vars : List String)
    (df : List (String × List Cell)) :
    Except String (List (String × List (List Char))) :=
  match policy with
  | HandleMissing.error =>
      if vars.any (fun v => colHasNA df v) then Except.error "DataValidationError"
      else Except.ok (vars.map (fun v =>
        (v, headTrunc top (valueCountsIndex ((getCol df v).filterMap cellAsStr)))))
  | HandleMissing.impute =>
      Except.ok (vars.map (fun v =>
        (v, headTrunc top (valueCountsIndex
          ((getCol df v).map (fun c => (cellAsStr c).getD []))))))
  | HandleMissing.ignore =>
      Except.ok (vars.map (fun v =>
        (v, headTrunc top (valueCountsIndex ((getCol df v).filterMap cellAsStr)))))

/-- Character matches of `difflib.SequenceMatcher.quick_ratio`: the size of
the multiset intersection of the two strings' characters,
`sum over c of min(count of c in a, count of c in b)`. -/
def charMatches (a b : List Char) : ℕ :=
  ∑ c in a.toFinset, min (a.count c) (b.count c)

/-- Similarity score of `_gpm_fast`:
`SequenceMatcher(None, a, b).quick_ratio()`, that is `2*M/T` with
`M = charMatches a b` and `T = len(a) + len(b)`, and `1.0` when both
strings are empty (difflib's `_calculate_ratio`). -/
def gpmFast (a b : List Char) : ℚ :=
  if a.length + b.length = 0 then 1
  else 2 * (charMatches a b : ℚ) / ((a.length : ℚ) + (b.length : ℚ))

/-- Name of the similarity column generated for vocabulary entry `c` of
variable `v` (`_get_new_features_name`): `v_nan` for the empty string (the
imputed-missing sentinel), `v_c` otherwise. -/
def newName (v : String) (c : List Char) : String :=
  if c = [] then v ++ "_nan" else v ++ "_" ++ String.mk c

/-- Output cell for one row and one vocabulary entry: a missing input row
gets the missing marker (the `np.nan` key of `column_encoder_dict` maps to
an all-NaN vector, and the `ignore` branch additionally overwrites missing
rows with NaN); a present value gets its similarity score. -/
def simCell (c : List Char) (cell : Cell) : Cell :=
  match cellAsStr cell with
  | some s => Cell.num (gpmFast s c)
  | none => Cell.na

/-- Named block of similarity columns generated for one encoded variable:
one column per vocabulary entry, in vocabulary order.  The source computes
each distinct value's vector once and broadcasts it (`column_encoder_dict`);
that memoisation is extensionally the per-row computation modelled here. -/
def blockFor (v : String) (voc : List (List Char)) (col : List Cell) :
    List (String × List Cell) :=
  voc.map (fun c => (newName v c, col.map (simCell c)))

/-- In-place `fillna("")` on a cell (`impute` policy). -/
def fillCell : Cell → Cell
  | Cell.na => Cell.str []
  | c => c

/-- In-place `X[var] = X[var].fillna("")` on a dataframe. -/
def fillNACol (df : List (String × List Cell)) (v : String) :
    List (String × List Cell) :=
  df.map (fun p => if p.1 = v then (p.1, p.2.map fillCell) else p)

/-- Per-variable loop of `StringSimilarityEncoder.transform`: for each
fitted variable, optionally impute its column in place, then compute its
block of similarity columns from the (possibly imputed) current dataframe;
returns the mutated dataframe and the concatenated named blocks. -/
def transformLoop (policy : HandleMissing) :
    List (String × List (List Char)) → List (String × List Cell) →
      List (String × List Cell) × List (String × List Cell)
  | [], df => (df, [])
  | (v, voc) :: rest, df =>
      let df1 := if policy = HandleMissing.impute then fillNACol df v else df
      let res := transformLoop policy rest df1
      (res.1, blockFor v voc (getCol df1 v) ++ res.2)

/-- Column assignment `X.loc[:, name] = col`: overwrites the column in
place when the name already exists, otherwise appends it at the end. -/
def setCol (df : List (String × List Cell)) (name : String) (col : List Cell) :
    List (String × List Cell) :=
  if df.any (fun p => p.1 = name) then
    df.map (fun p => if p.1 = name then (name, col) else p)
  else df ++ [(name, col)]

/-- Full `StringSimilarityEncoder.transform` over a fitted state `st`
(the `encoder_dict_` in `variables_` order): NA check under the `error`
policy, per-variable loop, assignment of all new columns
(`X.loc[:, new_features] = np.hstack(new_values)`), then
`X.drop(self.variables_, axis=1)`. -/
def encoderTransform (policy : HandleMissing)
    (st : List (String × List (List Char))) (df : List (String × List Cell)) :
    Except String (List (String × List Cell)) :=
  if policy = HandleMissing.error ∧ st.any (fun p => colHasNA df p.1) then
    Except.error "DataValidationError"
  else
    Except.ok (((transformLoop policy st df).2.foldl
        (fun d p => setCol d p.1 p.2) (transformLoop policy st df).1).filter
      (fun p => !(st.any (fun q => q.1 = p.1))))

/-- Names of all generated similarity columns, in generation order
(`_get_new_features_name` over all fitted variables). -/
def allNewNames (st : List (String × List (List Char))) : List String :=
  st.flatMap (fun p => p.2.map (newName p.1))

/-- Column contents an encoded variable's block is computed from, per
policy: the imputed column under `impute`, the column itself otherwise. -/
def applyPolicy (policy : HandleMissing) (col : List Cell) : List Cell :=
  if policy = HandleMissing.impute then col.map fillCell else col

/-!
Constructor validation.  The `__init__` checks are Python dynamic-type
checks, so they are embedded over a universe of Python values.  Note that
in Python `bool` is a subclass of `int`, so `isinstance(x, int)` accepts
booleans; and the encoder guards its `top_categories` type check by
truthiness (`if top_categories and not isinstance(top_categories, int)`).
-/

/-- Universe of Python values relevant to the constructor arguments. -/
inductive PyVal where
  | int : ℤ → PyVal
  | bool : Bool → PyVal
  | float : ℚ → PyVal
  | str : String → PyVal
  | pynone : PyVal
deriving DecidableEq

/-- Python `isinstance(x, int)` (booleans are integers in Python). -/
def PyVal.isInt : PyVal → Bool
  | PyVal.int _ => true
  | PyVal.bool _ => true
  | _ => false

/-- Python truthiness `bool(x)` of the modelled values. -/
def PyVal.truthy : PyVal → Bool
  | PyVal.int n => n ≠ 0
  | PyVal.bool b => b
  | PyVal.float q => q ≠ 0
  | PyVal.str s => s ≠ ""
  | PyVal.pynone => false

/-- Validation performed by `IncreasingWidthDiscretiser.__init__` on the
`bins` argument: `if not isinstance(bins, int): raise ValueError(...)`. -/
def incWidthInit (bins : PyVal) : Except String Unit :=
  if bins.isInt then Except.ok ()
  else Except.error "ValueError: bins must be an integer."

/-- Validation performed by `StringSimilarityEncoder.__init__` on the
`top_categories` and `handle_missing` arguments:
`if top_categories and not isinstance(top_categories, int): raise ...` then
`if handle_missing not in ("error", "impute", "ignore"): raise ...`. -/
def sseInit (top : PyVal) (hm : String) : Except String Unit :=
  if top.truthy && !top.isInt then
    Except.error "ValueError: top_categories takes only integers."
  else if !(["error", "impute", "ignore"].contains hm) then
    Except.error "ValueError: handle_missing should be one of the three options."
  else Except.ok ()

/-- Filter of a list down to the values with a given occurrence count in
the column values `n` (used to state stability of the frequency ranking). -/
def keyFilter {α : Type*} [DecidableEq α] (n : List α) (c : ℕ) (l : List α) :
    List α :=
  l.filter (fun x => n.count x = c)

lemma mem_firstSeenAux {α : Type*} [DecidableEq α] (a : α) :
    ∀ (l acc : List α), a ∈ firstSeenAux acc l ↔ a ∈ acc ∨ a ∈ l
  | [], acc => by simp [firstSeenAux]
  | x :: xs, acc => by
    rw [firstSeenAux]
    by_cases hx : x ∈ acc
    · rw [if_pos hx, mem_firstSeenAux a xs acc]
      simp only [List.mem_cons]
      constructor
      · rintro (h | h)
        · exact Or.inl h
        · exact Or.inr (Or.inr h)
      · rintro (h | rfl | h)
        · exact Or.inl h
        · exact Or.inl hx
        · exact Or.inr h
    · rw [if_neg hx, mem_firstSeenAux a xs (acc ++ [x])]
      simp only [List.mem_append, List.mem_singleton, List.mem_cons]
      tauto

lemma mem_firstSeen {α : Type*} [DecidableEq α] (a : α) (l : List α) :
    a ∈ firstSeen l ↔ a ∈ l := by
  rw [firstSeen, mem_firstSeenAux]
  simp

lemma nodup_firstSeenAux {α : Type*} [DecidableEq α] :
    ∀ (l acc : List α), acc.Nodup → (firstSeenAux acc l).Nodup
  | [], acc, h => by rwa [firstSeenAux]
  | x :: xs, acc, h => by
    rw [firstSeenAux]
    by_cases hx : x ∈ acc
    · rw [if_pos hx]
      exact nodup_firstSeenAux xs acc h
    · rw [if_neg hx]
      refine nodup_firstSeenAux xs (acc ++ [x]) ?_
      simp [List.nodup_append, h, hx]

lemma nodup_firstSeen {α : Type*} [DecidableEq α] (l : List α) :
    (firstSeen l).Nodup :=
  nodup_firstSeenAux l [] List.nodup_nil

lemma keyFilter_cons {α : Type*} [DecidableEq α] (n : List α) (c : ℕ) (b : α)
    (l : List α) :
    keyFilter n c (b :: l) =
      if n.count b = c then b :: keyFilter n c l else keyFilter n c l := by
  by_cases h : n.count b = c <;> simp [keyFilter, List.filter_cons, h]

lemma keyFilter_orderedInsert {α : Type*} [DecidableEq α] (n : List α) (c : ℕ)
    (a : α) : ∀ (l : List α),
    keyFilter n c (List.orderedInsert (countGE n) a l) =
      if n.count a = c then a :: keyFilter n c l else keyFilter n c l
  | [] => by
    by_cases hac : n.count a = c <;> simp [keyFilter, List.orderedInsert, hac]
  | b :: t => by
    rw [List.orderedInsert]
    by_cases hr : countGE n a b
    · rw [if_pos hr, keyFilter_cons]
    · rw [if_neg hr, keyFilter_cons, keyFilter_orderedInsert n c a t, keyFilter_cons]
      have hlt : n.count a < n.count b := by
        rw [countGE] at hr
        omega
      split_ifs <;> first | rfl | omega

lemma keyFilter_insertionSort {α : Type*} [DecidableEq α] (n : List α) (c : ℕ) :
    ∀ (l : List α),
      keyFilter n c (List.insertionSort (countGE n) l) = keyFilter n c l
  | [] => rfl
  | a :: l => by
    rw [List.insertionSort, keyFilter_orderedInsert n c a _,
      keyFilter_insertionSort n c l, keyFilter_cons]

lemma sorted_valueCountsIndex {α : Type*} [DecidableEq α] (n : List α) :
    List.Sorted (countGE n) (valueCountsIndex n) := by
  haveI : IsTotal α (countGE n) := ⟨fun a b => le_total (n.count b) (n.count a)⟩
  haveI : IsTrans α (countGE n) :=
    ⟨fun a b c hab hbc => le_trans hbc hab⟩
  exact List.sorted_insertionSort _ _

lemma perm_valueCountsIndex {α : Type*} [DecidableEq α] (n : List α) :
    (valueCountsIndex n).Perm (firstSeen n) :=
  List.perm_insertionSort _ _

lemma encoderFit_mem (policy : HandleMissing) (top : Option ℕ)
    (vars : List String) (df : List (String × List Cell))
    (res : List (String × List (List Char)))
    (h : encoderFit policy top vars df = Except.ok res) (v : String)
    (voc : List (List Char)) (hm : (v, voc) ∈ res) :
    voc = headTrunc top (valueCountsIndex (normalizedCol policy (getCol df v))) := by
  have extract : ∀ (f : String → List (List Char)),
      (v, voc) ∈ vars.map (fun w => (w, f w)) → voc = f v := by
    intro f hmem
    rcases List.mem_map.mp hmem with ⟨w, _, heq⟩
    rcases Prod.mk.injEq _ _ _ _ ▸ heq with ⟨rfl, rfl⟩
    rfl
  cases policy with
  | error =>
    rw [encoderFit] at h
    split at h
    · exact absurd h (by simp)
    · rw [Except.ok.injEq] at h
      rw [← h] at hm
      exact extract _ hm
  | impute =>
    rw [encoderFit, Except.ok.injEq] at h
    rw [← h] at hm
    exact extract _ hm
  | ignore =>
    rw [encoderFit, Except.ok.injEq] at h
    rw [← h] at hm
    exact extract _ hm

/-- C2: for every variable fitted by `StringSimilarityEncoder`, the learned
vocabulary `encoder_dict_[var]` is the truncation (all entries when
`top_categories` is `None`, the first `top_categories` otherwise) of a
ranking `R` of the distinct post-missing-policy values of the column, where
`R` contains exactly the distinct values (a permutation of the first-seen
distinct list), is ordered by descending occurrence count, and keeps values
with equal counts in first-seen order (for every count `c`, the values of
count `c` appear in `R` exactly as they appear in the first-seen list);
the truncated vocabulary itself is ordered by descending count. -/
theorem sse_fit_frequency_ranking (policy : HandleMissing) (top : Option ℕ)
    (vars : List String) (df : List (String × List Cell))
    (res : List (String × List (List Char)))
    (h : encoderFit policy top vars df = Except.ok res) (v : String)
    (voc : List (List Char)) (hm : (v, voc) ∈ res) :
    ∃ R : List (List Char),
      R.Perm (firstSeen (normalizedCol policy (getCol df v))) ∧
      List.Sorted (countGE (normalizedCol policy (getCol df v))) R ∧
      (∀ c : ℕ, keyFilter (normalizedCol policy (getCol df v)) c R =
        keyFilter (normalizedCol policy (getCol df v)) c
          (firstSeen (normalizedCol policy (getCol df v)))) ∧
      voc = headTrunc top R ∧
      List.Sorted (countGE (normalizedCol policy (getCol df v))) voc := by
  have hvoc := encoderFit_mem policy top vars df res h v voc hm
  refine ⟨valueCountsIndex (normalizedCol policy (getCol df v)),
    perm_valueCountsIndex _, sorted_valueCountsIndex _,
    fun c => keyFilter_insertionSort _ c _, hvoc, ?_⟩
  rw [hvoc]
  cases top with
  | none => exact sorted_valueCountsIndex _
  | some k =>
    exact List.Pairwise.sublist (List.take_sublist k _) (sorted_valueCountsIndex _)

/-- C2 witness: the frequency-ranking theorem applied to a concrete fit:
`impute` policy, `top_categories = 2`, single column
`"v" = ["b", NaN, "b", "a"]` (whose learned vocabulary is `["b", ""]`). -/
theorem sse_fit_frequency_ranking_witness :
    (encoderFit HandleMissing.impute (some 2) ["v"]
        [("v", [Cell.str ['b'], Cell.na, Cell.str ['b'], Cell.str ['a']])] =
      Except.ok [("v", [['b'], []])] ∧
      (("v", [['b'], []]) : String × List (List Char)) ∈
        [(("v", [['b'], []]) : String × List (List Char))]) ∧
    (∃ R : List (List Char),
      R.Perm (firstSeen (normalizedCol HandleMissing.impute
        (getCol [("v", [Cell.str ['b'], Cell.na, Cell.str ['b'], Cell.str ['a']])]
          "v"))) ∧
      List.Sorted (countGE (normalizedCol HandleMissing.impute
        (getCol [("v", [Cell.str ['b'], Cell.na, Cell.str ['b'], Cell.str ['a']])]
          "v"))) R ∧
      (∀ c : ℕ, keyFilter (normalizedCol HandleMissing.impute
          (getCol [("v", [Cell.str ['b'], Cell.na, Cell.str ['b'],
            Cell.str ['a']])] "v")) c R =
        keyFilter (normalizedCol HandleMissing.impute
          (getCol [("v", [Cell.str ['b'], Cell.na, Cell.str ['b'],
            Cell.str ['a']])] "v")) c
          (firstSeen (normalizedCol HandleMissing.impute
            (getCol [("v", [Cell.str ['b'], Cell.na, Cell.str ['b'],
              Cell.str ['a']])] "v")))) ∧
      [['b'], []] = headTrunc (some 2) R ∧
      List.Sorted (countGE (normalizedCol HandleMissing.impute
        (getCol [("v", [Cell.str ['b'], Cell.na, Cell.str ['b'],
          Cell.str ['a']])] "v"))) [['b'], []]) :=
  ⟨⟨rfl, by simp⟩,
    sse_fit_frequency_ranking HandleMissing.impute (some 2) ["v"]
      [("v", [Cell.str ['b'], Cell.na, Cell.str ['b'], Cell.str ['a']])]
      [("v", [['b'], []])] rfl "v" [['b'], []] (by simp)⟩

/-- C5: for every variable fitted by `StringSimilarityEncoder`, the learned
vocabulary has no duplicate entries; its length is the number of distinct
post-missing-policy values when `top_categories` is `None`, and
`min(top_categories, number of distinct values)` when `top_categories` is a
positive integer. -/
theorem sse_vocab_size (policy : HandleMissing) (top : Option ℕ)
    (vars : List String) (df : List (String × List Cell))
    (res : List (String × List (List Char)))
    (h : encoderFit policy top vars df = Except.ok res) (v : String)
    (voc : List (List Char)) (hm : (v, voc) ∈ res) :
    voc.Nodup ∧
    (top = none →
      voc.length = (firstSeen (normalizedCol policy (getCol df v))).length) ∧
    (∀ k : ℕ, top = some k → 0 < k →
      voc.length =
        min k (firstSeen (normalizedCol policy (getCol df v))).length) := by
  have hvoc := encoderFit_mem policy top vars df res h v voc hm
  have hperm := perm_valueCountsIndex (normalizedCol policy (getCol df v))
  have hnodupR : (valueCountsIndex (normalizedCol policy (getCol df v))).Nodup :=
    hperm.nodup_iff.mpr (nodup_firstSeen _)
  have hlenR : (valueCountsIndex (normalizedCol policy (getCol df v))).length =
      (firstSeen (normalizedCol policy (getCol df v))).length :=
    hperm.length_eq
  refine ⟨?_, ?_, ?_⟩
  · rw [hvoc]
    cases top with
    | none => exact hnodupR
    | some k => exact List.Nodup.sublist (List.take_sublist k _) hnodupR
  · rintro rfl
    rw [hvoc, headTrunc, hlenR]
  · rintro k rfl -
    rw [hvoc, headTrunc, List.length_take, hlenR]

/-- C5 witness: the vocabulary-size theorem applied to a concrete fit:
`ignore` policy, `top_categories = 5`, single column
`"w" = ["a", "b", NaN, "a"]` (two distinct values after dropping NaN). -/
theorem sse_vocab_size_witness :
    (encoderFit HandleMissing.ignore (some 5) ["w"]
        [("w", [Cell.str ['a'], Cell.str ['b'], Cell.na, Cell.str ['a']])] =
      Except.ok [("w", [['a'], ['b']])] ∧
      (("w", [['a'], ['b']]) : String × List (List Char)) ∈
        [(("w", [['a'], ['b']]) : String × List (List Char))]) ∧
    ([['a'], ['b']] : List (List Char)).Nodup ∧
    ((some 5 : Option ℕ) = none →
      ([['a'], ['b']] : List (List Char)).length =
        (firstSeen (normalizedCol HandleMissing.ignore
          (getCol [("w", [Cell.str ['a'], Cell.str ['b'], Cell.na,
            Cell.str ['a']])] "w"))).length) ∧
    (∀ k : ℕ, (some 5 : Option ℕ) = some k → 0 < k →
      ([['a'], ['b']] : List (List Char)).length =
        min k (firstSeen (normalizedCol HandleMissing.ignore
          (getCol [("w", [Cell.str ['a'], Cell.str ['b'], Cell.na,
            Cell.str ['a']])] "w"))).length) :=
  ⟨⟨rfl, by simp⟩,
    sse_vocab_size HandleMissing.ignore (some 5) ["w"]
      [("w", [Cell.str ['a'], Cell.str ['b'], Cell.na, Cell.str ['a']])]
      [("w", [['a'], ['b']])] rfl "w" [['a'], ['b']] (by simp)⟩

/-- C6: with `handle_missing = "error"`, `fit` fails with the
data-validation error as soon as any selected column contains a missing
entry, and `transform` likewise fails when any selected column of the
transform input contains a missing entry (even when the fit input had
none); in both cases an error is returned instead of a result. -/
theorem sse_error_policy_raises (top : Option ℕ) (vars : List String)
    (df : List (String × List Cell)) (v : String)
    (st : List (String × List (List Char))) (df2 : List (String × List Cell))
    (p : String × List (List Char))
    (h1 : v ∈ vars) (h2 : colHasNA df v = true)
    (h3 : p ∈ st) (h4 : colHasNA df2 p.1 = true) :
    encoderFit HandleMissing.error top vars df =
      Except.error "DataValidationError" ∧
    encoderTransform HandleMissing.error st df2 =
      Except.error "DataValidationError" := by
  constructor
  · rw [encoderFit, if_pos (List.any_eq_true.mpr ⟨v, h1, h2⟩)]
  · rw [encoderTransform, if_pos ⟨rfl, List.any_eq_true.mpr ⟨p, h3, h4⟩⟩]

/-- C6 witness: the error-policy theorem applied to concrete data: a fit
input whose column `"v"` holds a missing entry, and a fitted state (learned
from a missing-free input, vocabulary `["a"]`) transformed on an input
whose column `"v"` holds a missing entry. -/
theorem sse_error_policy_raises_witness :
    (("v" : String) ∈ ["v"] ∧
      colHasNA [("v", [Cell.str ['a'], Cell.na])] "v" = true ∧
      (("v", [['a']]) : String × List (List Char)) ∈ [("v", [['a']])] ∧
      colHasNA [("v", [Cell.na, Cell.str ['a']])]
        (("v", [['a']]) : String × List (List Char)).1 = true) ∧
    (encoderFit HandleMissing.error none ["v"]
        [("v", [Cell.str ['a'], Cell.na])] =
      Except.error "DataValidationError" ∧
    encoderTransform HandleMissing.error [("v", [['a']])]
        [("v", [Cell.na, Cell.str ['a']])] =
      Except.error "DataValidationError") :=
  ⟨⟨by simp, by decide, by simp, by decide⟩,
    sse_error_policy_raises none ["v"] [("v", [Cell.str ['a'], Cell.na])] "v"
      [("v", [['a']])] [("v", [Cell.na, Cell.str ['a']])] ("v", [['a']])
      (by simp) (by decide) (by simp) (by decide)⟩

lemma sum_count_toFinset (l : List Char) :
    ∑ c in l.toFinset, l.count c = l.length := by
  simp

lemma gpmFast_self (v : List Char) : gpmFast v v = 1 := by
  by_cases hv0 : v = []
  · subst hv0
    rw [gpmFast]
    simp
  · have hlen : 0 < v.length := List.length_pos.mpr hv0
    have hm : charMatches v v = v.length := by
      rw [charMatches]
      calc ∑ c in v.toFinset, min (v.count c) (v.count c)
          = ∑ c in v.toFinset, v.count c := by
            refine Finset.sum_congr rfl fun c _ => min_self _
        _ = v.length := sum_count_toFinset v
    rw [gpmFast, if_neg (by omega), hm]
    have hq : ((v.length : ℚ)) ≠ 0 := by
      exact_mod_cast hlen.ne'
    field_simp
    ring

/-- C8: for every string value `v` in the vocabulary of an encoded
variable, the configured similarity function `_gpm_fast` applied to `v` and
itself returns exactly `1`, and therefore a row holding `v` receives the
score exactly `1` in the output column corresponding to `v` (position `i`
of the similarity vector, and the output cell computed by the transform). -/
theorem gpm_self_similarity (v : List Char) (voc : List (List Char)) (i : ℕ)
    (hi : i < voc.length) (hv : voc.get ⟨i, hi⟩ = v) :
    gpmFast v v = 1 ∧
    (voc.map (fun c => gpmFast v c)).get ⟨i, by simpa using hi⟩ = 1 ∧
    simCell v (Cell.str v) = Cell.num 1 := by
  have h1 : gpmFast v v = 1 := gpmFast_self v
  refine ⟨h1, ?_, ?_⟩
  · have hmap : (voc.map (fun c => gpmFast v c)).get ⟨i, by simpa using hi⟩ =
        gpmFast v (voc.get ⟨i, hi⟩) := by
      simp
    rw [hmap, hv, h1]
  · simp [simCell, cellAsStr, h1]

/-- C8 witness: the self-similarity theorem applied to the concrete value
`"ab"` at position 1 of the vocabulary `["x", "ab"]`. -/
theorem gpm_self_similarity_witness :
    (1 < ([['x'], ['a', 'b']] : List (List Char)).length ∧
      ([['x'], ['a', 'b']] : List (List Char)).get ⟨1, by simp⟩ = ['a', 'b']) ∧
    (gpmFast ['a', 'b'] ['a', 'b'] = 1 ∧
      (([['x'], ['a', 'b']] : List (List Char)).map
        (fun c => gpmFast ['a', 'b'] c)).get ⟨1, by simp⟩ = 1 ∧
      simCell ['a', 'b'] (Cell.str ['a', 'b']) = Cell.num 1) :=
  ⟨⟨by simp, rfl⟩,
    gpm_self_similarity ['a', 'b'] [['x'], ['a', 'b']] 1 (by simp) rfl⟩

lemma flatMap_congr {α β : Type*} {l : List α} {f g : α → List β}
    (h : ∀ a ∈ l, f a = g a) : l.flatMap f = l.flatMap g := by
  induction l with
  | nil => rfl
  | cons a l ih =>
    simp only [List.flatMap_cons]
    rw [h a (by simp), ih (fun b hb => h b (by simp [hb]))]

lemma getCol_fillNACol_self (df : List (String × List Cell)) (v : String) :
    getCol (fillNACol df v) v = (getCol df v).map fillCell := by
  induction df with
  | nil => rfl
  | cons p rest ih =>
    obtain ⟨n, c⟩ := p
    by_cases hp : n = v
    · subst hp
      simp [fillNACol, getCol]
    · simp only [fillNACol, List.map_cons, getCol, if_neg hp]
      simpa [fillNACol] using ih

lemma getCol_fillNACol_ne (df : List (String × List Cell)) (v w : String)
    (h : w ≠ v) : getCol (fillNACol df v) w = getCol df w := by
  induction df with
  | nil => rfl
  | cons p rest ih =>
    obtain ⟨n, c⟩ := p
    by_cases hp : n = v
    · subst hp
      have hnw : ¬ n = w := fun hc => h hc.symm
      have ih2 := ih
      simp only [fillNACol] at ih2
      simp [fillNACol, getCol, hnw, ih2]
    · simp only [fillNACol, List.map_cons, if_neg hp, getCol]
      by_cases hw : n = w
      · rw [if_pos hw, if_pos hw]
      · rw [if_neg hw, if_neg hw]
        simpa [fillNACol] using ih

lemma filter_fillNACol (df : List (String × List Cell)) (v : String)
    (pred : String → Bool) (hv : pred v = false) :
    (fillNACol df v).filter (fun p => pred p.1) =
      df.filter (fun p => pred p.1) := by
  induction df with
  | nil => rfl
  | cons p rest ih =>
    by_cases hp : p.1 = v
    · have hpv : pred p.1 = false := by rw [hp]; exact hv
      simp only [fillNACol, List.map_cons, if_pos hp, List.filter_cons]
      simp only [fillNACol] at ih
      simp [hpv, ih]
    · simp only [fillNACol, List.map_cons, if_neg hp, List.filter_cons]
      simp only [fillNACol] at ih
      by_cases hq : pred p.1 <;> simp [hq, ih]

lemma map_fst_fillNACol (df : List (String × List Cell)) (v : String) :
    (fillNACol df v).map Prod.fst = df.map Prod.fst := by
  rw [fillNACol, List.map_map]
  refine List.map_congr_left fun p _ => ?_
  by_cases hp : p.1 = v <;> simp [hp]

lemma applyPolicy_of_ne_impute (policy : HandleMissing) (col : List Cell)
    (h : policy ≠ HandleMissing.impute) : applyPolicy policy col = col := by
  rw [applyPolicy, if_neg h]

lemma nodup_head_tail {A : Type} (v : String) (x : A)
    (rest : List (String × A)) (hnodup : (((v, x) :: rest).map Prod.fst).Nodup) :
    (∀ p ∈ rest, p.1 ≠ v) ∧ (rest.map Prod.fst).Nodup := by
  rw [List.map_cons] at hnodup
  have h := List.nodup_cons.mp hnodup
  refine ⟨fun p hp hc => h.1 ?_, h.2⟩
  exact List.mem_map.mpr ⟨p, hp, hc⟩

lemma transformLoop_snd (policy : HandleMissing) :
    ∀ (st : List (String × List (List Char))) (df : List (String × List Cell)),
      (st.map Prod.fst).Nodup →
      (transformLoop policy st df).2 =
        st.flatMap (fun p =>
          blockFor p.1 p.2 (applyPolicy policy (getCol df p.1)))
  | [], df, _ => rfl
  | (v, voc) :: rest, df, hnodup => by
    have hvrest := (nodup_head_tail v voc rest hnodup).1
    have hrest := (nodup_head_tail v voc rest hnodup).2
    rw [transformLoop]
    dsimp only
    by_cases hpol : policy = HandleMissing.impute
    · rw [if_pos hpol, List.flatMap_cons,
        transformLoop_snd _ rest (fillNACol df v) hrest,
        getCol_fillNACol_self, applyPolicy, if_pos hpol]
      congr 1
      refine flatMap_congr fun p hp => ?_
      rw [getCol_fillNACol_ne df v p.1 (hvrest p hp)]
    · rw [if_neg hpol, List.flatMap_cons,
        transformLoop_snd _ rest df hrest,
        applyPolicy_of_ne_impute _ _ hpol]

lemma transformLoop_fst_filter (policy : HandleMissing) (pred : String → Bool) :
    ∀ (st : List (String × List (List Char))) (df : List (String × List Cell)),
      (∀ p ∈ st, pred p.1 = false) →
      (transformLoop policy st df).1.filter (fun p => pred p.1) =
        df.filter (fun p => pred p.1)
  | [], df, _ => rfl
  | (v, voc) :: rest, df, h => by
    rw [transformLoop]
    dsimp only
    have hrest : ∀ p ∈ rest, pred p.1 = false := fun p hp => h p (by simp [hp])
    by_cases hpol : policy = HandleMissing.impute
    · rw [if_pos hpol,
        transformLoop_fst_filter _ pred rest (fillNACol df v) hrest,
        filter_fillNACol df v pred (h (v, voc) (by simp))]
    · rw [if_neg hpol]
      exact transformLoop_fst_filter _ pred rest df hrest

lemma transformLoop_fst_names (policy : HandleMissing) :
    ∀ (st : List (String × List (List Char))) (df : List (String × List Cell)),
      (transformLoop policy st df).1.map Prod.fst = df.map Prod.fst
  | [], df => rfl
  | (v, voc) :: rest, df => by
    rw [transformLoop]
    dsimp only
    by_cases hpol : policy = HandleMissing.impute
    · rw [if_pos hpol, transformLoop_fst_names _ rest (fillNACol df v),
        map_fst_fillNACol]
    · rw [if_neg hpol]
      exact transformLoop_fst_names _ rest df

lemma map_fst_blockFor (v : String) (voc : List (List Char)) (col : List Cell) :
    (blockFor v voc col).map Prod.fst = voc.map (newName v) := by
  rw [blockFor, List.map_map]
  rfl

lemma blocks_names (policy : HandleMissing)
    (st : List (String × List (List Char))) (df : List (String × List Cell)) :
    (st.flatMap (fun p =>
      blockFor p.1 p.2 (applyPolicy policy (getCol df p.1)))).map Prod.fst =
      allNewNames st := by
  rw [List.map_flatMap, allNewNames]
  refine flatMap_congr fun p _ => ?_
  exact map_fst_blockFor p.1 p.2 _

lemma foldl_setCol :
    ∀ (adds : List (String × List Cell)) (d : List (String × List Cell)),
      (∀ p ∈ adds, ∀ q ∈ d, q.1 ≠ p.1) → (adds.map Prod.fst).Nodup →
      adds.foldl (fun acc p => setCol acc p.1 p.2) d = d ++ adds
  | [], d, _, _ => by simp
  | a :: rest, d, hfresh, hnodup => by
    obtain ⟨n, c⟩ := a
    have hvrest := (nodup_head_tail n c rest hnodup).1
    have hrest := (nodup_head_tail n c rest hnodup).2
    have hany : (d.any fun p => p.1 = n) = false := by
      rw [List.any_eq_false]
      intro q hq
      simp only [decide_eq_true_eq]
      exact hfresh (n, c) (by simp) q hq
    have hone : setCol d n c = d ++ [(n, c)] := by
      rw [setCol, if_neg (by simp [hany])]
    rw [List.foldl_cons]
    have hfresh2 : ∀ p ∈ rest, ∀ q ∈ d ++ [(n, c)], q.1 ≠ p.1 := by
      intro p hp q hq
      rcases List.mem_append.mp hq with hq | hq
      · exact hfresh p (by simp [hp]) q hq
      · rcases List.mem_singleton.mp hq with rfl
        exact Ne.symm (hvrest p hp)
    dsimp only
    rw [hone, foldl_setCol rest (d ++ [(n, c)]) hfresh2 hrest]
    simp

lemma encoderTransform_ok_struct (policy : HandleMissing)
    (st : List (String × List (List Char))) (df : List (String × List Cell))
    (hstN : (st.map Prod.fst).Nodup)
    (hvars : ∀ p ∈ st, p.1 ∈ df.map Prod.fst)
    (hfresh : ∀ name ∈ allNewNames st, ¬ name ∈ df.map Prod.fst)
    (hnew : (allNewNames st).Nodup)
    (hok : ¬ (policy = HandleMissing.error ∧
      st.any (fun p => colHasNA df p.1) = true)) :
    encoderTransform policy st df = Except.ok
      (df.filter (fun p => !(st.any (fun q => q.1 = p.1))) ++
        st.flatMap (fun p =>
          blockFor p.1 p.2 (applyPolicy policy (getCol df p.1)))) := by
  rw [encoderTransform, if_neg hok]
  congr 1
  rw [transformLoop_snd policy st df hstN]
  have hbn := blocks_names policy st df
  have happend := foldl_setCol
    (st.flatMap (fun p => blockFor p.1 p.2 (applyPolicy policy (getCol df p.1))))
    (transformLoop policy st df).1 ?_ ?_
  · rw [happend, List.filter_append]
    congr 1
    · exact transformLoop_fst_filter policy
        (fun name => !(st.any (fun q => q.1 = name))) st df
        (fun p hp => by
          have h1 : (st.any fun q => decide (q.1 = p.1)) = true :=
            List.any_eq_true.mpr ⟨p, hp, by simp⟩
          show (!(st.any fun q => decide (q.1 = p.1))) = false
          rw [h1]
          rfl)
    · refine List.filter_eq_self.mpr fun b hb => ?_
      have hbname : b.1 ∈ allNewNames st := by
        rw [← hbn]
        exact List.mem_map_of_mem Prod.fst hb
      have hnotdf := hfresh b.1 hbname
      have : st.any (fun q => q.1 = b.1) = false := by
        rw [List.any_eq_false]
        intro q hq
        simp only [decide_eq_true_eq]
        intro hc
        exact hnotdf (hc ▸ hvars q hq)
      rw [this]
      rfl
  · intro p hp q hq
    have hpname : p.1 ∈ allNewNames st := by
      rw [← hbn]
      exact List.mem_map_of_mem Prod.fst hp
    have hqname : q.1 ∈ df.map Prod.fst := by
      rw [← transformLoop_fst_names policy st df]
      exact List.mem_map_of_mem Prod.fst hq
    intro hc
    exact hfresh p.1 hpname (hc ▸ hqname)
  · rw [hbn]
    exact hnew

/-- C3 (amended): for every fitted `StringSimilarityEncoder` and every
transform input carrying the fitted columns, provided the generated
similarity column names are pairwise distinct and do not collide with any
input column name, the output is exactly the non-encoded input columns (in
their original order and with their original values) followed by the
generated similarity columns; hence the output column count is (number of
non-encoded input columns) + the sum of the fitted vocabulary sizes, and
every encoded input column is absent from the output.  (The original claim
omits the no-collision proviso: when a generated name equals an existing
column name, `X.loc[:, new_features]` overwrites that column in place
instead of appending, and the count breaks; see the counterexample.) -/
theorem sse_transform_shape (policy : HandleMissing)
    (st : List (String × List (List Char))) (df : List (String × List Cell))
    (hstN : (st.map Prod.fst).Nodup)
    (hvars : ∀ p ∈ st, p.1 ∈ df.map Prod.fst)
    (hfresh : ∀ name ∈ allNewNames st, ¬ name ∈ df.map Prod.fst)
    (hnew : (allNewNames st).Nodup)
    (hok : ¬ (policy = HandleMissing.error ∧
      st.any (fun p => colHasNA df p.1) = true)) :
    ∃ res, encoderTransform policy st df = Except.ok res ∧
      res = df.filter (fun p => !(st.any (fun q => q.1 = p.1))) ++
        st.flatMap (fun p =>
          blockFor p.1 p.2 (applyPolicy policy (getCol df p.1))) ∧
      res.length =
        (df.filter (fun p => !(st.any (fun q => q.1 = p.1)))).length +
          (st.map (fun p => p.2.length)).sum ∧
      (∀ p ∈ st, ¬ p.1 ∈ res.map Prod.fst) ∧
      res.take (df.filter (fun p => !(st.any (fun q => q.1 = p.1)))).length =
        df.filter (fun p => !(st.any (fun q => q.1 = p.1))) ∧
      res.map Prod.fst =
        (df.filter (fun p => !(st.any (fun q => q.1 = p.1)))).map Prod.fst ++
          allNewNames st := by
  refine ⟨_, encoderTransform_ok_struct policy st df hstN hvars hfresh hnew hok,
    rfl, ?_, ?_, ?_, ?_⟩
  · rw [List.length_append]
    congr 1
    rw [List.length_flatMap]
    congr 1
    refine List.map_congr_left fun p _ => ?_
    simp [blockFor]
  · intro p hp hc
    rw [List.map_append, blocks_names policy st df] at hc
    rcases List.mem_append.mp hc with hc | hc
    · rcases List.mem_map.mp hc with ⟨q, hq, hq2⟩
      have := (List.mem_filter.mp hq).2
      have hany : st.any (fun r => r.1 = q.1) = true :=
        List.any_eq_true.mpr ⟨p, hp, by simp [hq2]⟩
      rw [hany] at this
      exact Bool.noConfusion this
    · exact hfresh p.1 hc (hvars p hp)
  · exact List.take_left _ _
  · rw [List.map_append, blocks_names policy st df]

/-- C3 witness: the shape theorem applied to a concrete fitted encoder
(`impute` policy, vocabulary `{"v" : ["a"]}`) and transform input with a
non-encoded numeric column `"u"` and the encoded column `"v"`. -/
theorem sse_transform_shape_witness :
    (((([("v", [['a']])] : List (String × List (List Char))).map
        Prod.fst).Nodup) ∧
      (∀ p ∈ ([("v", [['a']])] : List (String × List (List Char))),
        p.1 ∈ ([("u", [Cell.num 3]), ("v", [Cell.str ['a']])].map Prod.fst)) ∧
      (∀ name ∈ allNewNames [("v", [['a']])],
        ¬ name ∈ ([("u", [Cell.num 3]), ("v", [Cell.str ['a']])].map Prod.fst)) ∧
      (allNewNames [("v", [['a']])]).Nodup ∧
      ¬ (HandleMissing.impute = HandleMissing.error ∧
        ([("v", [['a']])] : List (String × List (List Char))).any
          (fun p => colHasNA [("u", [Cell.num 3]), ("v", [Cell.str ['a']])]
            p.1) = true)) ∧
    (∃ res, encoderTransform HandleMissing.impute [("v", [['a']])]
        [("u", [Cell.num 3]), ("v", [Cell.str ['a']])] = Except.ok res ∧
      res = ([("u", [Cell.num 3]), ("v", [Cell.str ['a']])].filter
          (fun p => !(([("v", [['a']])] : List (String × List (List Char))).any
            (fun q => q.1 = p.1)))) ++
        ([("v", [['a']])] : List (String × List (List Char))).flatMap
          (fun p => blockFor p.1 p.2 (applyPolicy HandleMissing.impute
            (getCol [("u", [Cell.num 3]), ("v", [Cell.str ['a']])] p.1))) ∧
      res.length =
        (([("u", [Cell.num 3]), ("v", [Cell.str ['a']])].filter
          (fun p => !(([("v", [['a']])] : List (String × List (List Char))).any
            (fun q => q.1 = p.1))))).length +
          (([("v", [['a']])] : List (String × List (List Char))).map
            (fun p => p.2.length)).sum ∧
      (∀ p ∈ ([("v", [['a']])] : List (String × List (List Char))),
        ¬ p.1 ∈ res.map Prod.fst) ∧
      res.take (([("u", [Cell.num 3]), ("v", [Cell.str ['a']])].filter
          (fun p => !(([("v", [['a']])] : List (String × List (List Char))).any
            (fun q => q.1 = p.1))))).length =
        ([("u", [Cell.num 3]), ("v", [Cell.str ['a']])].filter
          (fun p => !(([("v", [['a']])] : List (String × List (List Char))).any
            (fun q => q.1 = p.1)))) ∧
      res.map Prod.fst =
        (([("u", [Cell.num 3]), ("v", [Cell.str ['a']])].filter
          (fun p => !(([("v", [['a']])] : List (String × List (List Char))).any
            (fun q => q.1 = p.1)))).map Prod.fst) ++
          allNewNames [("v", [['a']])]) :=
  ⟨⟨by simp, by simp, by decide, by decide, by decide⟩,
    sse_transform_shape HandleMissing.impute [("v", [['a']])]
      [("u", [Cell.num 3]), ("v", [Cell.str ['a']])]
      (by simp) (by simp) (by decide) (by decide) (by decide)⟩

/-- C3 counterexample: a fitted encoder (vocabulary `{"v" : ["x"]}`,
learnable from the shown input) transformed on an input whose second column
is already named `v_x`: the generated similarity column name collides, the
existing `v_x` column is overwritten in place instead of appended, and the
output has 1 column where the claim requires (1 non-encoded) + (1
vocabulary entry) = 2. -/
theorem sse_transform_collision_cex :
    encoderFit HandleMissing.impute none ["v"]
        [("v", [Cell.str ['x']]), ("v_x", [Cell.num 0])] =
      Except.ok [("v", [['x']])] ∧
    encoderTransform HandleMissing.impute [("v", [['x']])]
        [("v", [Cell.str ['x']]), ("v_x", [Cell.num 0])] =
      Except.ok [("v_x", [Cell.num (gpmFast ['x'] ['x'])])] ∧
    gpmFast ['x'] ['x'] = 1 ∧
    ([("v_x", [Cell.num (gpmFast ['x'] ['x'])])] :
        List (String × List Cell)).length ≠
      ([("v", [Cell.str ['x']]), ("v_x", [Cell.num 0])].filter
        (fun p => !(([("v", [['x']])] : List (String × List (List Char))).any
          (fun q => q.1 = p.1)))).length +
        (([("v", [['x']])] : List (String × List (List Char))).map
          (fun p => p.2.length)).sum := by
  refine ⟨rfl, rfl, gpmFast_self ['x'], by decide⟩

/-- C7: with `handle_missing = "ignore"`, for every encoded variable and
every row index, a missing value in the encoded column yields the missing
marker in every one of that variable's similarity output columns (the whole
row of the similarity block is missing), while a present string value
yields the computed similarity score against each vocabulary entry. -/
theorem sse_ignore_missing_rows (st : List (String × List (List Char)))
    (df : List (String × List Cell))
    (hstN : (st.map Prod.fst).Nodup)
    (hvars : ∀ p ∈ st, p.1 ∈ df.map Prod.fst)
    (hfresh : ∀ name ∈ allNewNames st, ¬ name ∈ df.map Prod.fst)
    (hnew : (allNewNames st).Nodup)
    (v : String) (voc : List (List Char)) (col : List Cell) (i : ℕ)
    (hv : (v, voc) ∈ st) (hcol : getCol df v = col) (hi : i < col.length) :
    ∃ res, encoderTransform HandleMissing.ignore st df = Except.ok res ∧
      ∀ c ∈ voc, ∃ outcol, (newName v c, outcol) ∈ res ∧
        (col.get ⟨i, hi⟩ = Cell.na → outcol[i]? = some Cell.na) ∧
        (∀ s, col.get ⟨i, hi⟩ = Cell.str s →
          outcol[i]? = some (Cell.num (gpmFast s c))) := by
  have hok : ¬ (HandleMissing.ignore = HandleMissing.error ∧
      st.any (fun p => colHasNA df p.1) = true) := by simp
  refine ⟨_, encoderTransform_ok_struct HandleMissing.ignore st df hstN hvars
    hfresh hnew hok, ?_⟩
  intro c hc
  refine ⟨col.map (simCell c), ?_, ?_, ?_⟩
  · apply List.mem_append_right
    apply List.mem_flatMap.mpr
    refine ⟨(v, voc), hv, ?_⟩
    have happ : applyPolicy HandleMissing.ignore (getCol df v) = col := by
      rw [applyPolicy_of_ne_impute _ _ (by simp), hcol]
    rw [blockFor]
    rw [happ]
    exact List.mem_map.mpr ⟨c, hc, rfl⟩
  · intro hna
    rw [List.getElem?_map, List.getElem?_eq_getElem hi,
      show col[i] = Cell.na from hna]
    rfl
  · intro s hs
    rw [List.getElem?_map, List.getElem?_eq_getElem hi,
      show col[i] = Cell.str s from hs]
    rfl

/-- C7 witness: the ignore-policy theorem applied to a concrete fitted
encoder (vocabulary `{"v" : ["a"]}`) and a transform input whose encoded
column `"v" = [NaN, "a"]`, at row 0 (the missing row). -/
theorem sse_ignore_missing_rows_witness :
    (((([("v", [['a']])] : List (String × List (List Char))).map
        Prod.fst).Nodup) ∧
      (∀ p ∈ ([("v", [['a']])] : List (String × List (List Char))),
        p.1 ∈ ([("v", [Cell.na, Cell.str ['a']])].map Prod.fst)) ∧
      (∀ name ∈ allNewNames [("v", [['a']])],
        ¬ name ∈ ([("v", [Cell.na, Cell.str ['a']])].map Prod.fst)) ∧
      (allNewNames [("v", [['a']])]).Nodup ∧
      (("v", [['a']]) : String × List (List Char)) ∈ [("v", [['a']])] ∧
      getCol [("v", [Cell.na, Cell.str ['a']])] "v" =
        [Cell.na, Cell.str ['a']] ∧
      0 < ([Cell.na, Cell.str ['a']] : List Cell).length) ∧
    (∃ res, encoderTransform HandleMissing.ignore [("v", [['a']])]
        [("v", [Cell.na, Cell.str ['a']])] = Except.ok res ∧
      ∀ c ∈ ([['a']] : List (List Char)), ∃ outcol,
        (newName "v" c, outcol) ∈ res ∧
        (([Cell.na, Cell.str ['a']] : List Cell).get ⟨0, by simp⟩ = Cell.na →
          outcol[0]? = some Cell.na) ∧
        (∀ s, ([Cell.na, Cell.str ['a']] : List Cell).get ⟨0, by simp⟩ =
            Cell.str s →
          outcol[0]? = some (Cell.num (gpmFast s c)))) :=
  ⟨⟨by simp, by simp, by decide, by decide, by simp, rfl, by simp⟩,
    sse_ignore_missing_rows [("v", [['a']])] [("v", [Cell.na, Cell.str ['a']])]
      (by simp) (by simp) (by decide) (by decide) "v" [['a']]
      [Cell.na, Cell.str ['a']] 0 (by simp) rfl (by simp)⟩

/-- C9 (amended): `IncreasingWidthDiscretiser.__init__` raises exactly on
non-integer `bins` (booleans count as integers in Python) and accepts every
integer; `StringSimilarityEncoder.__init__` raises on a truthy non-integer
`top_categories` and on a `handle_missing` value outside
error/impute/ignore, and accepts every configuration with an integer-or-
falsy `top_categories` and a recognised `handle_missing`.  (The original
claim said every non-integer `top_categories` raises; a falsy non-integer
such as `0.0` slips through the truthiness guard — see the
counterexample.) -/
theorem init_validation :
    (∀ b : PyVal, b.isInt = false →
      incWidthInit b = Except.error "ValueError: bins must be an integer.") ∧
    (∀ b : PyVal, b.isInt = true → incWidthInit b = Except.ok ()) ∧
    (∀ (t : PyVal) (hm : String), t.truthy = true → t.isInt = false →
      sseInit t hm =
        Except.error "ValueError: top_categories takes only integers.") ∧
    (∀ (t : PyVal) (hm : String), (t.truthy = false ∨ t.isInt = true) →
      ¬ hm ∈ (["error", "impute", "ignore"] : List String) →
      sseInit t hm = Except.error
        "ValueError: handle_missing should be one of the three options.") ∧
    (∀ (t : PyVal) (hm : String), (t.truthy = false ∨ t.isInt = true) →
      hm ∈ (["error", "impute", "ignore"] : List String) →
      sseInit t hm = Except.ok ()) := by
  refine ⟨?_, ?_, ?_, ?_, ?_⟩
  · intro b hb
    rw [incWidthInit, if_neg (by rw [hb]; exact Bool.false_ne_true)]
  · intro b hb
    rw [incWidthInit, if_pos hb]
  · intro t hm ht hi
    rw [sseInit, if_pos (by rw [ht, hi]; rfl)]
  · intro t hm ht hhm
    have hguard : (t.truthy && !t.isInt) = false := by
      rcases ht with h | h <;> simp [h]
    have hc : (["error", "impute", "ignore"] : List String).contains hm =
        false := by
      simpa using hhm
    rw [sseInit, if_neg (by simp [hguard]), if_pos (by rw [hc]; rfl)]
  · intro t hm ht hhm
    have hguard : (t.truthy && !t.isInt) = false := by
      rcases ht with h | h <;> simp [h]
    have hc : (["error", "impute", "ignore"] : List String).contains hm =
        true := by
      simpa using hhm
    rw [sseInit, if_neg (by simp [hguard]), if_neg (by rw [hc]; simp)]

/-- C9 witness: the amended validation theorem applied at concrete
arguments: a non-integer `bins = "other"` (raises), integer `bins = 10`
(accepted), truthy non-integer `top_categories = 0.5` (raises), an invalid
`handle_missing = "propagate"` (raises), and the valid default
configuration (accepted). -/
theorem init_validation_witness :
    ((PyVal.str "other").isInt = false ∧
      incWidthInit (PyVal.str "other") =
        Except.error "ValueError: bins must be an integer.") ∧
    ((PyVal.int 10).isInt = true ∧
      incWidthInit (PyVal.int 10) = Except.ok ()) ∧
    ((PyVal.float (1/2)).truthy = true ∧ (PyVal.float (1/2)).isInt = false ∧
      sseInit (PyVal.float (1/2)) "impute" =
        Except.error "ValueError: top_categories takes only integers.") ∧
    (¬ ("propagate" : String) ∈ (["error", "impute", "ignore"] : List String) ∧
      sseInit PyVal.pynone "propagate" = Except.error
        "ValueError: handle_missing should be one of the three options.") ∧
    (("impute" : String) ∈ (["error", "impute", "ignore"] : List String) ∧
      sseInit PyVal.pynone "impute" = Except.ok ()) :=
  ⟨⟨by decide, init_validation.1 (PyVal.str "other") (by decide)⟩,
    ⟨by decide, init_validation.2.1 (PyVal.int 10) (by decide)⟩,
    ⟨by norm_num [PyVal.truthy], by decide,
      init_validation.2.2.1 (PyVal.float (1/2)) "impute"
        (by norm_num [PyVal.truthy]) (by decide)⟩,
    ⟨by decide, init_validation.2.2.2.1 PyVal.pynone "propagate"
      (Or.inl (by decide)) (by decide)⟩,
    ⟨by decide, init_validation.2.2.2.2 PyVal.pynone "impute"
      (Or.inl (by decide)) (by decide)⟩⟩

/-- C9 counterexample: `top_categories = 0.0` is a non-integer value, yet
the constructor accepts it: the type check is guarded by truthiness
(`if top_categories and not isinstance(top_categories, int)`) and `0.0` is
falsy. -/
theorem init_validation_cex :
    (PyVal.float 0).isInt = false ∧
    sseInit (PyVal.float 0) "impute" = Except.ok () := by
  exact ⟨by decide, rfl⟩
